import Mathlib

/-!
# Verification of the `readwrite_util` stream toolkit and STN parser

This file gives a shallow embedding of the core of `readwrite_data.h`:

* `rw.ReadStream` — the read-only byte cursor (`data`, `size`, `pos`), with
  `readWhile`, `readBytes` (the `read(void*, size_t)` overload), `readUntil`,
  and `find` built on `rw.find_sequence`.
* `rw.WriteStream` — the growable write buffer with byte position `pos` and
  bit position `bit_pos` (`put`, `write`, `pad`, `writebit`).
* `stn.parse` — the multiline-capable Simple Text Notation parser, and
  `rw.parseSimpleTextNotation` — the multiline-free variant.

Buffers are embedded as `List Char` (the C++ code reads `char` data); a
`ReadStream` holds the buffer itself, so the C++ `size` field is
`data.length`.  The C++ `while` loops are embedded as structural recursion:
`readWhile`'s scan walks the suffix of the buffer after `pos` (`rwCore`), the
`find_sequence` scan walks the container while tracking the running index
(`fsLoop`), and the parser's main loop carries explicit fuel
(`stn.parseLoopF`); fuel `data.length` is proved sufficient, since every
iteration advances the cursor.  The attribute table `std::map` is embedded as
an association list with overwrite-on-insert (`insertA`), which captures the
map's lookup semantics (last write wins).
-/

/-- The NUL character, the out-of-range default for byte lookups. -/
def nulChar : Char := Char.ofNat 0

/-- The attribute table: association list from key to value, keys unique. -/
abbrev Table := List (List Char × List Char)

/-- `attrs[key] = v` on a `std::map`: overwrite the binding if the key is
present, append it otherwise. -/
def insertA : Table → List Char → List Char → Table
  | [], k, v => [(k, v)]
  | (k', v') :: rest, k, v =>
    if k' = k then (k, v) :: rest else (k', v') :: insertA rest k v

/-- `std::map` lookup. -/
def lookupA : Table → List Char → Option (List Char)
  | [], _ => none
  | (k', v') :: rest, k => if k' = k then some v' else lookupA rest k

/-- `needle` occurs in `hay` starting at index `i`. -/
def occursAt (needle hay : List Char) (i : Nat) : Prop :=
  (hay.drop i).take needle.length = needle

instance (needle hay : List Char) (i : Nat) : Decidable (occursAt needle hay i) := by
  unfold occursAt
  exact inferInstance

/-- `needle` begins `hay` (executable). -/
def startsWith : List Char → List Char → Bool
  | [], _ => true
  | _ :: _, [] => false
  | a :: as, b :: bs => a == b && startsWith as bs

/-- `needle` occurs somewhere in `hay` (executable occurrence test). -/
def occursInB (needle : List Char) : List Char → Bool
  | [] => needle.isEmpty
  | b :: rest => startsWith needle (b :: rest) || occursInB needle rest

namespace rw

/-- `rw::find_sequence`'s scan loop, walking the container left to right.
`current` is the index of the head of the remaining container, `matched` the
number of needle elements matched so far, `found` the candidate start of a
match.  On a mismatch the scan restarts at the *next* index (`current + 1`)
with `matched = 0` — the C++ loop does not backtrack. -/
def fsLoop (seq : List Char) : List Char → Nat → Nat → Nat → Nat
  | [], _, _, found => found
  | c :: rest, current, matched, found =>
    if c = seq.getD matched nulChar then
      (if matched + 1 = seq.length then found
       else fsLoop seq rest (current + 1) (matched + 1) found)
    else fsLoop seq rest (current + 1) 0 (current + 1)

/-- `rw::find_sequence` (readwrite_data.h:486-516): returns 0 on an empty
needle, otherwise runs the scan from index 0. -/
def find_sequence (container seq : List Char) : Nat :=
  if seq.length = 0 then 0 else fsLoop seq container 0 0 0

/-- `rw::ReadStream`: borrowed buffer plus read position.  The C++ `size`
field is `data.length` here. -/
structure ReadStream where
  data : List Char
  pos : Nat
deriving DecidableEq, Repr

/-- `rw::ReadStream::operator bool`: the position is strictly before the end. -/
def ReadStream.hasMore (rs : ReadStream) : Bool :=
  rs.pos < rs.data.length

/-- `rw::ReadStream::find` (readwrite_data.h:647-650): search from `pos`,
clamping the container size to 0 when `pos` is past the end, and return
`pos` plus the relative result. -/
def ReadStream.find (rs : ReadStream) (str : List Char) : Nat :=
  rs.pos + find_sequence
    (if rs.data.length < rs.pos then [] else rs.data.drop rs.pos) str

/-- The scan of `rw::ReadStream::readWhile` over the remaining bytes: returns
(bytes consumed, bytes kept).  The byte that fails `rule` is consumed but not
kept; the scan also stops at end of buffer. -/
def rwCore (rule : Char → Bool) : List Char → Nat × Nat
  | [] => (0, 0)
  | c :: rest =>
    if rule c then
      let r := rwCore rule rest
      (r.1 + 1, r.2 + 1)
    else (1, 0)

/-- `rw::ReadStream::readWhile` (readwrite_data.h:688-703): the output is the
kept bytes starting at `pos`; the position advances over every consumed byte,
including a final byte failing `rule`. -/
def ReadStream.readWhile (rs : ReadStream) (rule : Char → Bool) : List Char × ReadStream :=
  let r := rwCore rule (rs.data.drop rs.pos)
  ((rs.data.drop rs.pos).take r.2, { rs with pos := rs.pos + r.1 })

/-- `rw::ReadStream::read(void*, size_t)` (readwrite_data.h:662-671): copy up
to `readsize` bytes, stopping at end of buffer, and advance `pos` by the
number copied.  Returns the bytes copied. -/
def ReadStream.readBytes (rs : ReadStream) (readsize : Nat) : List Char × ReadStream :=
  let n := min readsize (rs.data.length - rs.pos)
  ((rs.data.drop rs.pos).take n, { rs with pos := rs.pos + n })

/-- `rw::ReadStream::readUntil` (readwrite_data.h:674-684): empty result when
the end position is before `pos`; otherwise a string of `_pos - pos` NUL
bytes whose front is overwritten by `read`, so the tail stays NUL-padded when
the buffer runs out. -/
def ReadStream.readUntil (rs : ReadStream) (endPos : Nat) : List Char × ReadStream :=
  if endPos < rs.pos then ([], rs)
  else
    let r := rs.readBytes (endPos - rs.pos)
    (r.1 ++ List.replicate (endPos - rs.pos - r.1.length) nulChar, r.2)

/-- `rw::WriteStream`: growable byte buffer (bytes as `Nat`, values kept below
256 by the operations) with byte position `pos` and bit position `bit_pos`. -/
structure WriteStream where
  buf : List Nat
  pos : Nat
  bit_pos : Nat
  writebit_reversed : Bool
deriving DecidableEq, Repr

/-- `rw::WriteStream::expand`: append `num_bytes` zero bytes. -/
def WriteStream.expand (w : WriteStream) (num_bytes : Nat) : WriteStream :=
  { w with buf := w.buf ++ List.replicate num_bytes 0 }

/-- `rw::WriteStream::pad`: expand, then move `pos` to the new end. -/
def WriteStream.pad (w : WriteStream) (num_bytes : Nat) : WriteStream :=
  let w1 := w.expand num_bytes
  { w1 with pos := w1.buf.length }

/-- `rw::WriteStream::put`: expand by one byte if the buffer is too small,
write at `pos`, advance `pos`. -/
def WriteStream.put (w : WriteStream) (b : Nat) : WriteStream :=
  let w1 := if w.buf.length < w.pos + 1 then w.expand 1 else w
  { w1 with buf := w1.buf.set w.pos b, pos := w.pos + 1 }

/-- The copy loop of `rw::WriteStream::write`: write the source bytes at
successive positions. -/
def writeCopy (buf : List Nat) (pos : Nat) : List Nat → List Nat
  | [] => buf
  | b :: rest => writeCopy (buf.set pos b) (pos + 1) rest

/-- `rw::WriteStream::write(const void*, size_t)`: resize to `pos + n` if
too small (zero-filling), copy the source at `pos`, advance `pos` by `n`. -/
def WriteStream.write (w : WriteStream) (src : List Nat) : WriteStream :=
  let w1 :=
    if w.buf.length < src.length + w.pos then
      { w with buf := w.buf ++ List.replicate (src.length + w.pos - w.buf.length) 0 }
    else w
  { w1 with buf := writeCopy w1.buf w.pos src, pos := w.pos + src.length }

/-- `rw::WriteStream::writebit` (readwrite_data.h:207-222): locate the target
byte from `bit_pos`; if it is past the end, resize through it and move `pos`
to the new end; set or clear the addressed bit (optionally reversed within
the byte); advance `bit_pos`. -/
def WriteStream.writebit (w : WriteStream) (bit : Bool) : WriteStream :=
  let byte_pos := w.bit_pos / 8
  let byte_bit_pos := w.bit_pos - byte_pos * 8
  let w1 :=
    if w.buf.length ≤ byte_pos then
      { w with buf := w.buf ++ List.replicate (byte_pos + 1 - w.buf.length) 0,
               pos := byte_pos + 1 }
    else w
  let p := if w.writebit_reversed then 7 - byte_bit_pos else byte_bit_pos
  let old := w1.buf.getD byte_pos 0
  { w1 with
      buf := w1.buf.set byte_pos ((old &&& (255 ^^^ (1 <<< p))) ||| ((if bit then 1 else 0) <<< p)),
      bit_pos := w.bit_pos + 1 }

/-- The `WriteStream` buffer invariant of the specification: the buffer is at
least as long as the byte position and as the byte extent of the bit
position. -/
def WInv (w : WriteStream) : Prop :=
  w.pos ≤ w.buf.length ∧ (w.bit_pos + 7) / 8 ≤ w.buf.length

instance (w : WriteStream) : Decidable (WInv w) := by
  unfold WInv
  exact inferInstance

end rw

namespace stn

/-- The `"[MULTILINE]"` tag. -/
def mtag : List Char := "[MULTILINE]".toList

/-- The multiline terminator sequence `"\n[END_MULTILINE]\n"`. -/
def endTag : List Char := "\n[END_MULTILINE]\n".toList

/-- The test `line.empty() || line[0] == '#'` of both parsers. -/
def lineIsBlankOrComment : List Char → Bool
  | [] => true
  | c :: _ => c == '#'

/-- One iteration of the `stn::parse` loop body (readwrite_data.h:757-779),
run at `pos` with pending key `key` (empty list means no pending key):
returns the next position, pending key and table. -/
def parseStep (data : List Char) (pos : Nat) (key : List Char) (attrs : Table) :
    Nat × List Char × Table :=
  let r := rw.ReadStream.readWhile ⟨data, pos⟩ (fun c => c != '\n')
  let line := r.1
  let pos1 := r.2.pos
  if lineIsBlankOrComment line then
    (pos1, [], if key = [] then attrs else insertA attrs key line)
  else if key = [] then
    (pos1, line, attrs)
  else if line = mtag then
    let rs1 : rw.ReadStream := ⟨data, pos1⟩
    let r2 := rs1.readUntil (rs1.find endTag)
    (r2.2.pos, [], insertA attrs key r2.1)
  else
    (pos1, [], insertA attrs key line)

/-- The `stn::parse` loop with explicit fuel: `none` when the fuel runs out
before the cursor is exhausted (never happens with fuel `data.length`, see
`parseLoopF_isSome`). -/
def parseLoopF (data : List Char) : Nat → Nat → List Char → Table → Option Table
  | 0, pos, _, attrs => if pos < data.length then none else some attrs
  | fuel + 1, pos, key, attrs =>
    if pos < data.length then
      let s := parseStep data pos key attrs
      parseLoopF data fuel s.1 s.2.1 s.2.2
    else some attrs

/-- `stn::parse` (readwrite_data.h:752-782) over an in-memory buffer. -/
def parse (data : List Char) : Table :=
  (parseLoopF data data.length 0 [] []).getD []

end stn

namespace rw

/-- One iteration of the `rw::parseSimpleTextNotation` loop body
(readwrite_data.h:332-350) — identical to `stn.parseStep` except that there
is no `[MULTILINE]` branch. -/
def parseSimpleStep (data : List Char) (pos : Nat) (key : List Char) (attrs : Table) :
    Nat × List Char × Table :=
  let r := ReadStream.readWhile ⟨data, pos⟩ (fun c => c != '\n')
  let line := r.1
  let pos1 := r.2.pos
  if stn.lineIsBlankOrComment line then
    (pos1, [], if key = [] then attrs else insertA attrs key line)
  else if key = [] then
    (pos1, line, attrs)
  else
    (pos1, [], insertA attrs key line)

/-- The `rw::parseSimpleTextNotation` loop with explicit fuel. -/
def parseSimpleLoopF (data : List Char) : Nat → Nat → List Char → Table → Option Table
  | 0, pos, _, attrs => if pos < data.length then none else some attrs
  | fuel + 1, pos, key, attrs =>
    if pos < data.length then
      let s := parseSimpleStep data pos key attrs
      parseSimpleLoopF data fuel s.1 s.2.1 s.2.2
    else some attrs

/-- `rw::parseSimpleTextNotation` (readwrite_data.h:326-353) over an
in-memory buffer. -/
def parseSimpleTextNotation (data : List Char) : Table :=
  (parseSimpleLoopF data data.length 0 [] []).getD []

end rw

/-! ## Helper lemmas -/

/-- Indexing into a dropped list is indexing at a shifted position. -/
theorem getD_drop_eq (l : List Char) : ∀ n m : Nat,
    (l.drop n).getD m nulChar = l.getD (n + m) nulChar := by
  induction l with
  | nil => intro n m; simp
  | cons c rest ih =>
    intro n m
    cases n with
    | zero => simp
    | succ n => simp [Nat.succ_add, ih n m]

/-- The `readWhile` scan on a buffer whose first `rule`-failing byte is at
index `k`: it consumes `k + 1` bytes and keeps `k`. -/
theorem rwCore_spec (rule : Char → Bool) :
    ∀ (l : List Char) (k : Nat), k < l.length → rule (l.getD k nulChar) = false →
      (∀ q, q < k → rule (l.getD q nulChar) = true) →
      rw.rwCore rule l = (k + 1, k) := by
  intro l
  induction l with
  | nil => intro k hk _ _; simp at hk
  | cons c rest ih =>
    intro k hk hfail hall
    cases k with
    | zero =>
      simp only [List.getD_cons_zero] at hfail
      simp [rw.rwCore, hfail]
    | succ k =>
      have hc : rule c = true := by simpa using hall 0 (Nat.succ_pos k)
      have hrest := ih k (by simpa using hk) (by simpa using hfail)
        (fun q hq => by simpa using hall (q + 1) (by omega))
      simp [rw.rwCore, hc, hrest]

/-- The `readWhile` scan consumes at least one byte of a non-empty buffer. -/
theorem rwCore_consumed_pos (rule : Char → Bool) (l : List Char) (h : l ≠ []) :
    1 ≤ (rw.rwCore rule l).1 := by
  cases l with
  | nil => exact absurd rfl h
  | cons c rest =>
    unfold rw.rwCore
    split <;> simp

/-- `readUntil` never moves the position backwards. -/
theorem readUntil_pos_ge (rs : rw.ReadStream) (e : Nat) :
    rs.pos ≤ ((rs.readUntil e).2).pos := by
  unfold rw.ReadStream.readUntil rw.ReadStream.readBytes
  split
  · exact Nat.le_refl _
  · simp

/-- **C4.** `readWhile` at a cursor whose first `rule`-failing byte is at
index `j` returns exactly the bytes `[pos, j)` — the failing byte is excluded
from the output — while the position advances to `j + 1`, past the failing
byte; and `readWhile` at or past end-of-buffer returns the empty string and
leaves the cursor unchanged. -/
theorem c4_readWhile_spec (rs : rw.ReadStream) (rule : Char → Bool) :
    (∀ j, rs.pos ≤ j → j < rs.data.length → rule (rs.data.getD j nulChar) = false →
      (∀ q, rs.pos ≤ q → q < j → rule (rs.data.getD q nulChar) = true) →
      rs.readWhile rule = ((rs.data.drop rs.pos).take (j - rs.pos), ⟨rs.data, j + 1⟩)) ∧
    (rs.data.length ≤ rs.pos → rs.readWhile rule = ([], rs)) := by
  obtain ⟨data, pos⟩ := rs
  dsimp only
  constructor
  · intro j hpj hjlen hfail hall
    have hcore : rw.rwCore rule (data.drop pos) = (j - pos + 1, j - pos) := by
      apply rwCore_spec
      · simp only [List.length_drop]
        omega
      · rw [getD_drop_eq]
        rwa [Nat.add_sub_cancel' hpj]
      · intro q hq
        rw [getD_drop_eq]
        exact hall (pos + q) (by omega) (by omega)
    simp only [rw.ReadStream.readWhile, hcore]
    have : pos + (j - pos + 1) = j + 1 := by omega
    rw [this]
  · intro hlen
    have hnil : data.drop pos = [] := List.drop_eq_nil_of_le hlen
    simp [rw.ReadStream.readWhile, hnil, rw.rwCore]

/-- Witness for `c4_readWhile_spec` at a concrete cursor: reading up to the
newline of `"ab\nc"` yields `"ab"` and position 3. -/
theorem c4_readWhile_spec_witness :
    rw.ReadStream.readWhile ⟨"ab\nc".toList, 0⟩ (fun c => c != '\n') =
      (("ab\nc".toList.drop 0).take (2 - 0), ⟨"ab\nc".toList, 2 + 1⟩) :=
  (c4_readWhile_spec ⟨"ab\nc".toList, 0⟩ (fun c => c != '\n')).1 2
    (by decide) (by decide) (by decide) (by decide)

/-- Every iteration of the parser loop advances the cursor strictly. -/
theorem parseStep_advance (data : List Char) (pos : Nat) (key : List Char) (attrs : Table)
    (h : pos < data.length) : pos < (stn.parseStep data pos key attrs).1 := by
  have hne : data.drop pos ≠ [] := by
    intro hnil
    have hle := List.drop_eq_nil_iff.mp hnil
    omega
  have hcons := rwCore_consumed_pos (fun c => c != '\n') (data.drop pos) hne
  have hread := readUntil_pos_ge
    ⟨data, pos + (rw.rwCore (fun c => c != '\n') (data.drop pos)).1⟩
    (rw.ReadStream.find
      ⟨data, pos + (rw.rwCore (fun c => c != '\n') (data.drop pos)).1⟩ stn.endTag)
  unfold stn.parseStep
  simp only [rw.ReadStream.readWhile]
  dsimp only at hread
  split_ifs <;> dsimp only <;> omega

/-- The parser loop's result does not depend on the fuel, once the fuel
covers the remaining buffer. -/
theorem parseLoopF_mono (data : List Char) :
    ∀ f₁ f₂ pos key attrs, data.length - pos ≤ f₁ → f₁ ≤ f₂ →
      stn.parseLoopF data f₁ pos key attrs = stn.parseLoopF data f₂ pos key attrs := by
  intro f₁
  induction f₁ with
  | zero =>
    intro f₂ pos key attrs h1 _
    have hp : ¬ pos < data.length := by omega
    cases f₂ <;> simp [stn.parseLoopF, hp]
  | succ f ih =>
    intro f₂ pos key attrs h1 h2
    cases f₂ with
    | zero => omega
    | succ f₂' =>
      by_cases hp : pos < data.length
      · have hadv := parseStep_advance data pos key attrs hp
        simp only [stn.parseLoopF, if_pos hp]
        exact ih f₂' _ _ _ (by omega) (by omega)
      · simp [stn.parseLoopF, hp]

/-- With fuel covering the remaining buffer, the parser loop completes. -/
theorem parseLoopF_isSome (data : List Char) :
    ∀ fuel pos key attrs, data.length - pos ≤ fuel →
      (stn.parseLoopF data fuel pos key attrs).isSome = true := by
  intro fuel
  induction fuel with
  | zero =>
    intro pos key attrs h
    have hp : ¬ pos < data.length := by omega
    simp [stn.parseLoopF, hp]
  | succ f ih =>
    intro pos key attrs h
    by_cases hp : pos < data.length
    · have hadv := parseStep_advance data pos key attrs hp
      simp only [stn.parseLoopF, if_pos hp]
      exact ih _ _ _ (by omega)
    · simp [stn.parseLoopF, hp]

/-- **C7.** The parser terminates in a bounded pass and never fails: for any
input and any fuel of at least the input length, the fuelled loop returns
`some` of the parse result (so the pass is bounded by input size and the
result is fuel-independent); and parsing the empty buffer yields the empty
table. -/
theorem c7_parse_total (data : List Char) (fuel : Nat) (h : data.length ≤ fuel) :
    stn.parseLoopF data fuel 0 [] [] = some (stn.parse data) ∧
    stn.parse ([] : List Char) = [] := by
  constructor
  · obtain ⟨t, ht⟩ := Option.isSome_iff_exists.mp
      (parseLoopF_isSome data data.length 0 [] [] (by omega))
    have hmono := parseLoopF_mono data data.length fuel 0 [] [] (by omega) h
    unfold stn.parse
    rw [← hmono, ht]
    rfl
  · rfl

/-- Witness for `c7_parse_total`: the two-byte input `"a\n"` with fuel 5. -/
theorem c7_parse_total_witness :
    stn.parseLoopF "a\n".toList 5 0 [] [] = some (stn.parse "a\n".toList) ∧
    stn.parse ([] : List Char) = [] :=
  c7_parse_total "a\n".toList 5 (by decide)

/-- The copy loop of `WriteStream::write` preserves the buffer length. -/
theorem writeCopy_length : ∀ (src buf : List Nat) (pos : Nat),
    (rw.writeCopy buf pos src).length = buf.length := by
  intro src
  induction src with
  | nil => intro buf pos; rfl
  | cons b rest ih => intro buf pos; simp [rw.writeCopy, ih]

/-- Setting the byte just past a list, after extending it by one zero byte,
appends the byte. -/
theorem set_append_length (l : List Nat) (a b : Nat) :
    (l ++ [a]).set l.length b = l ++ [b] := by
  induction l with
  | nil => rfl
  | cons c rest ih => simp [List.set, ih]

/-- **C8.** The `WriteStream` invariant — buffer length at least the byte
position and at least the byte extent of the bit position — holds for the
fresh stream and is preserved by `put`, `write`, `pad` and `writebit`;
moreover `pad` leaves the byte position exactly at the buffer's end, and a
`put` issued with the position at the buffer's end appends the byte with no
gap. -/
theorem c8_writeStream_invariant (w : rw.WriteStream) (b : Nat) (src : List Nat)
    (n : Nat) (bit : Bool) (h : rw.WInv w) :
    rw.WInv (w.put b) ∧ rw.WInv (w.write src) ∧ rw.WInv (w.pad n) ∧
    rw.WInv (w.writebit bit) ∧ rw.WInv ⟨[], 0, 0, w.writebit_reversed⟩ ∧
    (w.pad n).pos = (w.pad n).buf.length ∧
    (w.pos = w.buf.length → (w.put b).buf = w.buf ++ [b]) := by
  obtain ⟨hpos, hbit⟩ := h
  refine ⟨?_, ?_, ?_, ?_, ?_, ?_, ?_⟩
  · unfold rw.WriteStream.put rw.WriteStream.expand rw.WInv
    dsimp only
    split_ifs with h1 <;> simp only [List.length_set, List.length_append, List.length_replicate] <;>
      constructor <;> omega
  · unfold rw.WriteStream.write rw.WInv
    dsimp only
    split_ifs with h1 <;>
      simp only [writeCopy_length, List.length_append, List.length_replicate] <;>
      constructor <;> omega
  · unfold rw.WriteStream.pad rw.WriteStream.expand rw.WInv
    dsimp only
    simp only [List.length_append, List.length_replicate]
    constructor <;> omega
  · unfold rw.WriteStream.writebit rw.WInv
    have h8 : (w.bit_pos + 1 + 7) / 8 = w.bit_pos / 8 + 1 := by omega
    dsimp only
    split_ifs with h1 <;>
      simp only [List.length_set, List.length_append, List.length_replicate] <;>
      constructor <;> omega
  · constructor <;> simp [rw.WInv]
  · unfold rw.WriteStream.pad rw.WriteStream.expand
    dsimp only
  · intro hend
    unfold rw.WriteStream.put rw.WriteStream.expand
    have h1 : w.buf.length < w.pos + 1 := by omega
    dsimp only
    rw [if_pos h1]
    dsimp only
    have : List.replicate 1 (0 : Nat) = [0] := rfl
    rw [this, hend, set_append_length]

/-- Witness for `c8_writeStream_invariant`: the fresh stream with a byte, a
two-byte write, a pad of 3 and one bit. -/
theorem c8_writeStream_invariant_witness :
    rw.WInv ((⟨[], 0, 0, false⟩ : rw.WriteStream).put 5) ∧
    rw.WInv ((⟨[], 0, 0, false⟩ : rw.WriteStream).write [1, 2]) ∧
    rw.WInv ((⟨[], 0, 0, false⟩ : rw.WriteStream).pad 3) ∧
    rw.WInv ((⟨[], 0, 0, false⟩ : rw.WriteStream).writebit true) ∧
    rw.WInv ⟨[], 0, 0, (⟨[], 0, 0, false⟩ : rw.WriteStream).writebit_reversed⟩ ∧
    ((⟨[], 0, 0, false⟩ : rw.WriteStream).pad 3).pos =
      ((⟨[], 0, 0, false⟩ : rw.WriteStream).pad 3).buf.length ∧
    ((⟨[], 0, 0, false⟩ : rw.WriteStream).pos = (⟨[], 0, 0, false⟩ : rw.WriteStream).buf.length →
      ((⟨[], 0, 0, false⟩ : rw.WriteStream).put 5).buf =
        (⟨[], 0, 0, false⟩ : rw.WriteStream).buf ++ [5]) :=
  c8_writeStream_invariant ⟨[], 0, 0, false⟩ 5 [1, 2] 3 true (by decide)

/-- **C6.** Whenever the parser reads a line starting with `'#'` while a key
is pending, the entire line (leading `'#'` included) is assigned as that
key's value and the key is cleared; in particular
`"a\n#not a comment\n"` parses to `{a ↦ "#not a comment"}`. -/
theorem c6_comment_becomes_value :
    (∀ (data : List Char) (fuel pos : Nat) (key : List Char) (attrs : Table)
        (rest : List Char) (pos' : Nat), key ≠ [] → pos < data.length →
      rw.ReadStream.readWhile ⟨data, pos⟩ (fun c => c != '\n') = ('#' :: rest, ⟨data, pos'⟩) →
      stn.parseLoopF data (fuel + 1) pos key attrs =
        stn.parseLoopF data fuel pos' [] (insertA attrs key ('#' :: rest))) ∧
    stn.parse "a\n#not a comment\n".toList = [("a".toList, "#not a comment".toList)] := by
  constructor
  · intro data fuel pos key attrs rest pos' hkey hpos hline
    have hstep : stn.parseStep data pos key attrs = (pos', [], insertA attrs key ('#' :: rest)) := by
      unfold stn.parseStep
      rw [hline]
      simp [stn.lineIsBlankOrComment, hkey]
    simp [stn.parseLoopF, hpos, hstep]
  · decide

/-- Witness for `c6_comment_becomes_value` at the input `"k\n#c\n"`, pending
key `"k"`, cursor at the comment line. -/
theorem c6_comment_becomes_value_witness :
    stn.parseLoopF "k\n#c\n".toList (5 + 1) 2 "k".toList [] =
      stn.parseLoopF "k\n#c\n".toList 5 5 [] (insertA [] "k".toList ('#' :: "c".toList)) :=
  c6_comment_becomes_value.1 "k\n#c\n".toList 5 2 "k".toList [] "c".toList 5
    (by decide) (by decide) (by decide)

/-- A list whose front (of the needle's length) equals the needle passes the
executable begins-with test. -/
theorem startsWith_of_take (n : List Char) : ∀ h : List Char,
    h.take n.length = n → startsWith n h = true := by
  induction n with
  | nil => intro h _; rfl
  | cons a as ih =>
    intro h heq
    cases h with
    | nil => simp at heq
    | cons b bs =>
      simp only [List.length_cons, List.take_succ_cons, List.cons.injEq] at heq
      simp [startsWith, heq.1, ih bs heq.2]

/-- When the executable occurrence test fails, the needle does not begin at
any index. -/
theorem occursInB_false_no (n : List Char) : ∀ h : List Char, occursInB n h = false →
    ∀ i, (h.drop i).take n.length ≠ n := by
  intro h
  induction h with
  | nil =>
    intro hf i hcontra
    simp only [occursInB] at hf
    simp only [List.drop_nil, List.take_nil] at hcontra
    rw [← hcontra] at hf
    simp at hf
  | cons c rest ih =>
    intro hf i
    simp only [occursInB, Bool.or_eq_false_iff] at hf
    cases i with
    | zero =>
      intro hcontra
      have := startsWith_of_take n (c :: rest) (by simpa using hcontra)
      simp [this] at hf
    | succ i =>
      simpa using ih hf.2 i

/-- A list equal to some front of `l` is also the front of `l` of its own
length. -/
theorem take_eq_self_length (l m : List Char) (c : Nat) (h : l.take c = m) :
    l.take m.length = m := by
  have hlen : m.length ≤ c := by
    rw [← h, List.length_take]
    omega
  calc l.take m.length = (l.take c).take m.length := by
        rw [List.take_take, Nat.min_eq_left hlen]
    _ = m := by rw [h, List.take_length]

/-- On a buffer in which `"[MULTILINE]"` never occurs, one iteration of
`stn::parse` and of `rw::parseSimpleTextNotation` agree: no line the parser
reads can equal the tag, so the multiline branch is dead. -/
theorem parseStep_eq_simple (data : List Char) (hno : occursInB stn.mtag data = false)
    (pos : Nat) (key : List Char) (attrs : Table) :
    stn.parseStep data pos key attrs = rw.parseSimpleStep data pos key attrs := by
  unfold stn.parseStep rw.parseSimpleStep
  simp only [rw.ReadStream.readWhile]
  by_cases hb : stn.lineIsBlankOrComment
      ((data.drop pos).take ((rw.rwCore (fun c => c != '\n') (data.drop pos)).2))
  · simp [hb]
  · by_cases hk : key = []
    · simp [hb, hk]
    · have hmt : ¬ (data.drop pos).take ((rw.rwCore (fun c => c != '\n') (data.drop pos)).2)
          = stn.mtag := by
        intro heq
        exact occursInB_false_no stn.mtag data hno pos
          (take_eq_self_length (data.drop pos) stn.mtag _ heq)
      simp [hb, hk, hmt]

/-- On a buffer in which `"[MULTILINE]"` never occurs, the two parser loops
coincide for every fuel and state. -/
theorem parseLoopF_eq_simple (data : List Char) (hno : occursInB stn.mtag data = false) :
    ∀ fuel pos key attrs, stn.parseLoopF data fuel pos key attrs =
      rw.parseSimpleLoopF data fuel pos key attrs := by
  intro fuel
  induction fuel with
  | zero => intro pos key attrs; rfl
  | succ f ih =>
    intro pos key attrs
    by_cases hp : pos < data.length
    · simp only [stn.parseLoopF, rw.parseSimpleLoopF, if_pos hp,
        parseStep_eq_simple data hno]
      apply ih
    · simp [stn.parseLoopF, rw.parseSimpleLoopF, hp]

/-- **C9.** On every input in which the substring `"[MULTILINE]"` does not
occur, the multiline-capable parser `stn.parse` and the multiline-free parser
`rw.parseSimpleTextNotation` return exactly the same attribute table. -/
theorem c9_parse_eq_simple (data : List Char) (hno : occursInB stn.mtag data = false) :
    stn.parse data = rw.parseSimpleTextNotation data := by
  unfold stn.parse rw.parseSimpleTextNotation
  rw [parseLoopF_eq_simple data hno]

/-- Witness for `c9_parse_eq_simple` on a five-line input with keys, values,
a blank separator and a skipped comment. -/
theorem c9_parse_eq_simple_witness :
    stn.parse "a\nb\n\n#x\nc\nd\n".toList =
      rw.parseSimpleTextNotation "a\nb\n\n#x\nc\nd\n".toList :=
  c9_parse_eq_simple "a\nb\n\n#x\nc\nd\n".toList (by decide)

/-- **C1** (amended). Parsing
`"a\n[MULTILINE]\nline1\nline2\n[END_MULTILINE]\n\n"` maps the key `"a"` to
`"line1\nline2"`: the bytes strictly between the newline terminating the
`[MULTILINE]` line (the value starts at offset 14) and the start of the first
occurrence of `"\n[END_MULTILINE]\n"` (offset 25, the newline ending
`line2`, which therefore belongs to the terminator and not to the value). -/
theorem c1_multiline_value :
    lookupA (stn.parse "a\n[MULTILINE]\nline1\nline2\n[END_MULTILINE]\n\n".toList)
        "a".toList = some "line1\nline2".toList ∧
    occursAt stn.endTag "a\n[MULTILINE]\nline1\nline2\n[END_MULTILINE]\n\n".toList 25 ∧
    ¬ occursInB stn.endTag
        ("a\n[MULTILINE]\nline1\nline2\n[END_MULTILINE]\n\n".toList.take 25) = true ∧
    "line1\nline2".toList =
      ("a\n[MULTILINE]\nline1\nline2\n[END_MULTILINE]\n\n".toList.drop 14).take (25 - 14) := by
  refine ⟨by decide, by decide, by decide, by decide⟩

/-- **C1** (counterexample to the claim as stated): the value bound to `"a"`
is not `"line1\nline2\n"` — the claimed byte string has a trailing newline
the parser does not include. -/
theorem c1_multiline_value_cex :
    lookupA (stn.parse "a\n[MULTILINE]\nline1\nline2\n[END_MULTILINE]\n\n".toList)
      "a".toList ≠ some "line1\nline2\n".toList := by
  decide

/-- **C2** (the code contradicts it). In the buffer `"aab"` with the cursor
at 0, the needle `"ab"` occurs first (and only) at offset 1, yet
`ReadStream::find` returns 3, the end of the buffer: after the partial match
at offset 0 dies, the non-backtracking scan of `rw::find_sequence` resumes
*after* the mismatching byte and never revisits offset 1. -/
theorem c2_find_misses_occurrence :
    occursAt "ab".toList "aab".toList 1 ∧
    ¬ occursAt "ab".toList "aab".toList 0 ∧
    rw.ReadStream.find ⟨"aab".toList, 0⟩ "ab".toList = 3 := by
  refine ⟨by decide, by decide, by decide⟩

/-- **C3** (the code contradicts it). In the buffer `"xa"` with the cursor at
0, the needle `"ab"` occurs nowhere, yet `ReadStream::find` returns 1, not
the buffer length 2: the scan ends in the middle of the trailing partial
match `"a"` and reports that match's start. -/
theorem c3_find_trailing_partial :
    occursInB "ab".toList "xa".toList = false ∧
    rw.ReadStream.find ⟨"xa".toList, 0⟩ "ab".toList = 1 ∧
    ("xa".toList).length = 2 := by
  refine ⟨by decide, by decide, by decide⟩

/-- **C5** (the code contradicts it). In
`"a\n[MULTILINE]\nx\n[END"` the terminator `"\n[END_MULTILINE]\n"` does not
occur, so per the claim (and the format's own specification) the value of
`"a"` should be the whole remainder `"x\n[END"`; but `find` stops at the
trailing partial match `"\n[END"` and the parser stores only `"x"`. -/
theorem c5_multiline_missing_terminator_bug :
    occursInB stn.endTag "a\n[MULTILINE]\nx\n[END".toList = false ∧
    stn.parse "a\n[MULTILINE]\nx\n[END".toList = [("a".toList, "x".toList)] ∧
    "a\n[MULTILINE]\nx\n[END".toList.drop 14 = "x\n[END".toList ∧
    "x".toList ≠ "x\n[END".toList := by
  refine ⟨by decide, by decide, by decide, by decide⟩

/-- **C10.** Parsing `"a\n[MULTILINE]\nline1\nline2\n[END_MULTILINE]\n\n"`
yields, besides `"a"`, the key `"[END_MULTILINE]"` mapped to the empty
string: the cursor stops at the newline opening the terminator sequence, the
empty line is discarded, the `[END_MULTILINE]` line is then read as an
ordinary key, and the final blank line commits it with an empty value. -/
theorem c10_end_multiline_reparsed :
    stn.parse "a\n[MULTILINE]\nline1\nline2\n[END_MULTILINE]\n\n".toList =
      [("a".toList, "line1\nline2".toList), ("[END_MULTILINE]".toList, [])] := by
  decide
